import Mathlib

/-!
# Verification of `probnumeval.multivariate._calibration_measures`

Shallow embedding of the calibration measures `anees` and `nci` and of the
per-point normalized-discrepancy computation, over exact rationals
(idealizing IEEE floats), together with theorems settling the frozen claims.

Conventions of the embedding:
* a batch of N Gaussian estimates is a list of mean vectors `Fin d → ℚ`
  and a list of covariance matrices `Matrix (Fin d) (Fin d) ℚ`;
* a Python exception is an `Except` error value
  (`numpy.linalg.LinAlgError` for singular matrices, the `scipy`
  Cholesky failure for non-positive-definite input, and the explicit
  `ValueError` for an unrecognized inversion strategy);
* a floating-point result that is not a finite real number (NaN or an
  infinity, as produced by `np.log10` on a non-positive argument) is
  modelled by `Option.none`.
-/

open scoped Matrix

namespace ProbNumEval

/-- Modelled from the spec: the process-wide covariance-inversion
configuration `config.COVARIANCE_INVERSION` (the `probnumeval.config`
module itself is not part of the sources; its fields `strategy`,
`symmetrize` and `damping` are those read by
`_compute_normalized_discrepancy` and described in the spec's
configuration surface). -/
structure CovarianceInversion where
  strategy : String
  symmetrize : Bool
  damping : ℚ

/-- Errors raised (as Python exceptions) by the discrepancy computation:
`numpy.linalg.LinAlgError` on a singular matrix for `inv`/`solve`, the
`scipy.linalg.cho_factor` failure on a non-positive-definite matrix, and
the explicit `ValueError("Covariance inversion parameters are not known.")`. -/
inductive DiscrepancyError where
  | singularMatrix : DiscrepancyError
  | notPositiveDefinite : DiscrepancyError
  | invalidConfiguration : DiscrepancyError
deriving DecidableEq, Repr

/-- Faddeev–LeVerrier sequence for a matrix `B`: `flSeq B k = (Mₖ, cₖ)`
with `M₀ = 0`, `c₀ = 1`, `Mₖ₊₁ = B Mₖ + cₖ • 1` and
`cₖ₊₁ = −tr(B Mₖ₊₁)/(k+1)`, so that `det (X•1 − B) = ∑ cₖ X^(d−k)`.
Used only to compute the Moore–Penrose pseudoinverse of a singular matrix. -/
def flSeq {d : ℕ} (B : Matrix (Fin d) (Fin d) ℚ) : ℕ → Matrix (Fin d) (Fin d) ℚ × ℚ
  | 0 => (0, 1)
  | k + 1 =>
    let p := flSeq B k
    let M := B * p.1 + p.2 • (1 : Matrix (Fin d) (Fin d) ℚ)
    (M, -(Matrix.trace (B * M)) / (k + 1))

/-- The rank index used in Decell's pseudoinverse formula: the largest
`k ∈ {1, …, d}` whose Faddeev–LeVerrier coefficient `cₖ` is nonzero
(equivalently, the rank of `B`), and `0` when all of them vanish. -/
def decellRank {d : ℕ} (B : Matrix (Fin d) (Fin d) ℚ) : ℕ :=
  (((List.range d).map (· + 1)).filter (fun j => decide ((flSeq B j).2 ≠ 0))).foldr max 0

/-- Executable matrix inverse over ℚ: `det⁻¹ • adjugate`.  Agrees with
Mathlib's (noncomputable) `Matrix.inv` on every matrix, see `matInv_eq_inv`. -/
def matInv {d : ℕ} (A : Matrix (Fin d) (Fin d) ℚ) : Matrix (Fin d) (Fin d) ℚ :=
  (A.det)⁻¹ • A.adjugate

/-- The Moore–Penrose pseudoinverse (embedding `np.linalg.pinv`).
For an invertible matrix the pseudoinverse is the inverse; for a singular
matrix `A` it is given by Decell's finite formula
`A⁺ = −cₖ⁻¹ · Aᵀ · Mₖ` where `(Mₖ, cₖ)` is the Faddeev–LeVerrier sequence
of `B = A Aᵀ` at the rank `k` of `B`, and `A⁺ = 0` when `A = 0`. -/
def pinv {d : ℕ} (A : Matrix (Fin d) (Fin d) ℚ) : Matrix (Fin d) (Fin d) ℚ :=
  if A.det ≠ 0 then matInv A
  else
    let B := A * Aᵀ
    let k := decellRank B
    if k = 0 then 0 else (-(flSeq B k).2⁻¹) • (Aᵀ * (flSeq B k).1)

/-- The symmetric matrix actually read by `scipy.linalg.cho_factor(cov, lower=True)`:
LAPACK only references the lower triangle of its input, so the factorization
(and `cho_solve`) operate on the matrix whose entry `(i, j)` is `C i j` when
`j ≤ i` and `C j i` otherwise. -/
def lowerSym {d : ℕ} (C : Matrix (Fin d) (Fin d) ℚ) : Matrix (Fin d) (Fin d) ℚ :=
  Matrix.of fun i j => if j ≤ i then C i j else C j i

/-- The leading principal `(k+1) × (k+1)` submatrix of a `d × d` matrix. -/
def leadingSub {d : ℕ} (C : Matrix (Fin d) (Fin d) ℚ) (k : Fin d) :
    Matrix (Fin (k + 1)) (Fin (k + 1)) ℚ :=
  C.submatrix (Fin.castLE k.2) (Fin.castLE k.2)

/-- Success condition of the Cholesky factorization run by
`scipy.linalg.cho_factor` on the lower triangle of `C`: every pivot of the
recursion is positive, i.e. every leading principal minor of `lowerSym C`
is positive. -/
def CholeskySucceeds {d : ℕ} (C : Matrix (Fin d) (Fin d) ℚ) : Prop :=
  ∀ k : Fin d, 0 < (leadingSub (lowerSym C) k).det

instance {d : ℕ} (C : Matrix (Fin d) (Fin d) ℚ) : Decidable (CholeskySucceeds C) :=
  inferInstanceAs (Decidable (∀ _ : Fin d, _))

/-- Embedding of `_compute_normalized_discrepancy(mean, cov)`.
Mirrors the source line by line: optional symmetrization
`cov = 0.5 * (cov + cov.T)`, optional damping
`cov += damping * np.eye(len(cov))` (applied only when the configured
damping is strictly positive), then the strategy dispatch
`inv` / `pinv` / `solve` / `cholesky`, falling through to the
`ValueError`.  `mean @ M @ mean` is the left-associated numpy chain
`(mean ᵥ* M) ⬝ᵥ mean`; `np.linalg.solve(cov, mean)` is the solution
`cov⁻¹ *ᵥ mean` of the linear system; `np.linalg.inv` and
`np.linalg.solve` raise on a singular matrix. -/
def computeNormalizedDiscrepancy {d : ℕ} (cfg : CovarianceInversion)
    (mean : Fin d → ℚ) (cov : Matrix (Fin d) (Fin d) ℚ) : Except DiscrepancyError ℚ :=
  let cov1 := if cfg.symmetrize then ((1 : ℚ) / 2) • (cov + covᵀ) else cov
  let cov2 := if 0 < cfg.damping then cov1 + cfg.damping • (1 : Matrix (Fin d) (Fin d) ℚ)
              else cov1
  if cfg.strategy = "inv" then
    if cov2.det ≠ 0 then .ok (Matrix.vecMul mean (matInv cov2) ⬝ᵥ mean)
    else .error .singularMatrix
  else if cfg.strategy = "pinv" then
    .ok (Matrix.vecMul mean (pinv cov2) ⬝ᵥ mean)
  else if cfg.strategy = "solve" then
    if cov2.det ≠ 0 then .ok (mean ⬝ᵥ matInv cov2 *ᵥ mean)
    else .error .singularMatrix
  else if cfg.strategy = "cholesky" then
    if CholeskySucceeds cov2 then .ok (mean ⬝ᵥ matInv (lowerSym cov2) *ᵥ mean)
    else .error .notPositiveDefinite
  else .error .invalidConfiguration

/-- Embedding of `_compute_normalized_discrepancies(centered_mean, cov_matrices)`:
the list comprehension over `zip(centered_mean, cov_matrices)`, stopping at
the first raised exception. -/
def computeNormalizedDiscrepancies {d : ℕ} (cfg : CovarianceInversion)
    (centeredMean : List (Fin d → ℚ)) (covMatrices : List (Matrix (Fin d) (Fin d) ℚ)) :
    Except DiscrepancyError (List ℚ) :=
  (centeredMean.zip covMatrices).mapM fun p => computeNormalizedDiscrepancy cfg p.1 p.2

/-- An approximate solution, as consumed by `anees` and `nci`: an object
exposing a batched mean array of shape `(N, d)` and a batched covariance
array of shape `(N, d, d)`. -/
structure ApproximateSolution (d : ℕ) where
  mean : List (Fin d → ℚ)
  cov : List (Matrix (Fin d) (Fin d) ℚ)

/-- `np.mean` of a vector: sum divided by length. -/
def listMean (l : List ℚ) : ℚ := l.sum / l.length

/-- Embedding of `anees(approximate_solution, reference_solution)`. -/
def anees {d : ℕ} (cfg : CovarianceInversion) (approximateSolution : ApproximateSolution d)
    (referenceSolution : List (Fin d → ℚ)) : Except DiscrepancyError ℚ :=
  let centeredMean := List.zipWith (fun m r => m - r) approximateSolution.mean referenceSolution
  (computeNormalizedDiscrepancies cfg centeredMean approximateSolution.cov).map listMean

/-- Embedding of `np.cov(centered_mean.T)`: the sample covariance matrix of
the `N` residual vectors (rows of `centered_mean` become the observations of
each of the `d` variables), centered at the empirical mean and normalized by
`N − 1` (numpy's default `ddof=1`). -/
def npCov {d : ℕ} (ms : List (Fin d → ℚ)) : Matrix (Fin d) (Fin d) ℚ :=
  Matrix.of fun i j =>
    (ms.map fun m => (m i - (ms.map (fun m' => m' i)).sum / ms.length) *
      (m j - (ms.map (fun m' => m' j)).sum / ms.length)).sum / (ms.length - 1)

/-- `np.log10` on a (rational-valued) float: a finite real number exactly
when the argument is positive, `none` (NaN or `-inf`) otherwise. -/
noncomputable def npLog10 (x : ℚ) : Option ℝ :=
  if 0 < x then some (Real.logb 10 (x : ℝ)) else none

/-- `np.mean` of a real vector. -/
noncomputable def listMeanR (l : List ℝ) : ℝ := l.sum / l.length

/-- Embedding of `nci(approximate_solution, reference_solution)`:
discrepancies against the per-point covariances, then against
`np.tile(np.cov(centered_mean.T), (N, 1, 1))`, then
`10 * (mean(log10 A) − mean(log10 B))`.  The result is `.ok none` when a
non-positive discrepancy makes the logarithm non-finite (NaN propagation,
not a raised exception). -/
noncomputable def nci {d : ℕ} (cfg : CovarianceInversion)
    (approximateSolution : ApproximateSolution d)
    (referenceSolution : List (Fin d → ℚ)) : Except DiscrepancyError (Option ℝ) :=
  let centeredMean := List.zipWith (fun m r => m - r) approximateSolution.mean referenceSolution
  (computeNormalizedDiscrepancies cfg centeredMean approximateSolution.cov).bind fun A =>
    let sampleCovarianceMatrix := List.replicate centeredMean.length (npCov centeredMean)
    (computeNormalizedDiscrepancies cfg centeredMean sampleCovarianceMatrix).bind fun B =>
      .ok ((A.mapM npLog10).bind fun la =>
        (B.mapM npLog10).map fun lb => 10 * (listMeanR la - listMeanR lb))

/-- Spec step 1 (symmetrize, optional): if enabled, replace the covariance
with its symmetric part `0.5 * (C + Cᵀ)`. -/
def symmetrizeStep {d : ℕ} (symmetrize : Bool) (C : Matrix (Fin d) (Fin d) ℚ) :
    Matrix (Fin d) (Fin d) ℚ :=
  if symmetrize then ((1 : ℚ) / 2) • (C + Cᵀ) else C

/-- Spec step 2 (damping, optional): if the configured damping value is
strictly positive, add `damping • I`. -/
def dampingStep {d : ℕ} (damping : ℚ) (C : Matrix (Fin d) (Fin d) ℚ) :
    Matrix (Fin d) (Fin d) ℚ :=
  if 0 < damping then C + damping • (1 : Matrix (Fin d) (Fin d) ℚ) else C

/-- Spec step 3 (inversion/solve): compute `residualᵀ · C⁻¹ · residual` by
the configured strategy, with the unrecognized-strategy error otherwise. -/
def applyStrategy {d : ℕ} (cfg : CovarianceInversion) (mean : Fin d → ℚ)
    (C : Matrix (Fin d) (Fin d) ℚ) : Except DiscrepancyError ℚ :=
  if cfg.strategy = "inv" then
    if C.det ≠ 0 then .ok (Matrix.vecMul mean (matInv C) ⬝ᵥ mean) else .error .singularMatrix
  else if cfg.strategy = "pinv" then
    .ok (Matrix.vecMul mean (pinv C) ⬝ᵥ mean)
  else if cfg.strategy = "solve" then
    if C.det ≠ 0 then .ok (mean ⬝ᵥ matInv C *ᵥ mean) else .error .singularMatrix
  else if cfg.strategy = "cholesky" then
    if CholeskySucceeds C then .ok (mean ⬝ᵥ matInv (lowerSym C) *ᵥ mean)
    else .error .notPositiveDefinite
  else .error .invalidConfiguration

/-- The covariance array the caller sees after
`_compute_normalized_discrepancy(mean, cov)` returns, following Python's
aliasing semantics: `cov = 0.5 * (cov + cov.T)` rebinds the local name to a
fresh array, while `cov += damping * np.eye(len(cov))` mutates the array
currently named by `cov` in place.  The caller's array is therefore mutated
exactly when symmetrization is disabled and damping is strictly positive. -/
def callerCovAfterCall {d : ℕ} (cfg : CovarianceInversion)
    (cov : Matrix (Fin d) (Fin d) ℚ) : Matrix (Fin d) (Fin d) ℚ :=
  if cfg.symmetrize then cov
  else if 0 < cfg.damping then cov + cfg.damping • (1 : Matrix (Fin d) (Fin d) ℚ)
  else cov

/-! ## Helper lemmas -/

theorem except_bind_ok {ε α β : Type} (a : α) (f : α → Except ε β) :
    (Except.ok a).bind f = f a := rfl

theorem except_bind_error {ε α β : Type} (e : ε) (f : α → Except ε β) :
    (Except.error e).bind f = (.error e : Except ε β) := rfl

theorem except_bindM_ok {ε α β : Type} (a : α) (f : α → Except ε β) :
    (Except.ok a >>= f : Except ε β) = f a := rfl

theorem except_bindM_error {ε α β : Type} (e : ε) (f : α → Except ε β) :
    (Except.error e >>= f : Except ε β) = .error e := rfl

theorem except_map_ok {ε α β : Type} (a : α) (f : α → β) :
    (Except.ok a).map f = (.ok (f a) : Except ε β) := rfl

theorem except_map_error {ε α β : Type} (e : ε) (f : α → β) :
    (Except.error e).map f = (.error e : Except ε β) := rfl

theorem except_pure {ε α : Type} (a : α) : (pure a : Except ε α) = .ok a := rfl

theorem exceptMapM_ok_iff {ε α β : Type} {f : α → Except ε β} :
    ∀ {l : List α} {ys : List β},
      l.mapM f = .ok ys ↔ List.Forall₂ (fun a b => f a = .ok b) l ys := by
  intro l
  induction l with
  | nil =>
    intro ys
    simp only [List.mapM_nil, except_pure, Except.ok.injEq, List.forall₂_nil_left_iff]
    exact ⟨fun h => h.symm, fun h => h.symm⟩
  | cons a t ih =>
    intro ys
    rw [List.mapM_cons]
    constructor
    · intro h
      cases hfa : f a with
      | error e => rw [hfa, except_bindM_error] at h; cases h
      | ok b =>
        rw [hfa, except_bindM_ok] at h
        cases hft : t.mapM f with
        | error e => rw [hft, except_bindM_error] at h; cases h
        | ok bs =>
          rw [hft, except_bindM_ok, except_pure] at h
          cases h
          exact List.Forall₂.cons hfa (ih.mp hft)
    · intro h
      cases h with
      | cons hab htl =>
        rw [hab, except_bindM_ok, ih.mpr htl, except_bindM_ok, except_pure]

theorem exceptMapM_no_error {ε α β : Type} {f : α → Except ε β} {e : ε}
    (l : List α) (h : ∀ a ∈ l, f a ≠ .error e) : l.mapM f ≠ .error e := by
  induction l with
  | nil => rw [List.mapM_nil, except_pure]; intro hc; cases hc
  | cons a t ih =>
    rw [List.mapM_cons]
    cases hfa : f a with
    | error e' =>
      rw [except_bindM_error]
      intro hc
      cases hc
      exact h a (by simp) hfa
    | ok b =>
      rw [except_bindM_ok]
      cases hft : t.mapM f with
      | error e' =>
        rw [except_bindM_error]
        intro hc
        cases hc
        exact ih (fun x hx => h x (by simp [hx])) hft
      | ok bs =>
        rw [except_bindM_ok, except_pure]
        intro hc
        cases hc

theorem exceptMapM_cons_error {ε α β : Type} {f : α → Except ε β} {e : ε} {a : α}
    (t : List α) (hfa : f a = .error e) : (a :: t).mapM f = .error e := by
  rw [List.mapM_cons, hfa, except_bindM_error]

theorem except_map_ne_error {ε α β : Type} {x : Except ε α} {e : ε} (h : x ≠ .error e)
    (f : α → β) : x.map f ≠ .error e := by
  cases x with
  | ok a => rw [except_map_ok]; intro hc; cases hc
  | error e' =>
    rw [except_map_error]
    intro hc
    cases hc
    exact h rfl

theorem option_bind_some {α β : Type} (a : α) (f : α → Option β) :
    (Option.some a).bind f = f a := rfl

theorem option_bindM_some {α β : Type} (a : α) (f : α → Option β) :
    (some a >>= f : Option β) = f a := rfl

theorem option_bindM_none {α β : Type} (f : α → Option β) :
    (none >>= f : Option β) = none := rfl

theorem option_pure {α : Type} (a : α) : (pure a : Option α) = some a := rfl

theorem optionMapM_some_iff {α β : Type} {f : α → Option β} :
    ∀ {l : List α} {ys : List β},
      l.mapM f = some ys ↔ List.Forall₂ (fun a b => f a = some b) l ys := by
  intro l
  induction l with
  | nil =>
    intro ys
    simp only [List.mapM_nil, option_pure, Option.some.injEq, List.forall₂_nil_left_iff]
    exact ⟨fun h => h.symm, fun h => h.symm⟩
  | cons a t ih =>
    intro ys
    rw [List.mapM_cons]
    constructor
    · intro h
      cases hfa : f a with
      | none => rw [hfa, option_bindM_none] at h; cases h
      | some b =>
        rw [hfa, option_bindM_some] at h
        cases hft : t.mapM f with
        | none => rw [hft, option_bindM_none] at h; cases h
        | some bs =>
          rw [hft, option_bindM_some, option_pure] at h
          cases h
          exact List.Forall₂.cons hfa (ih.mp hft)
    · intro h
      cases h with
      | cons hab htl =>
        rw [hab, option_bindM_some, ih.mpr htl, option_bindM_some, option_pure]

theorem optionMapM_none_iff {α β : Type} {f : α → Option β} :
    ∀ {l : List α}, l.mapM f = none ↔ ∃ a ∈ l, f a = none := by
  intro l
  induction l with
  | nil =>
    rw [List.mapM_nil, option_pure]
    simp
  | cons a t ih =>
    rw [List.mapM_cons]
    cases hfa : f a with
    | none => simp [option_bindM_none, hfa]
    | some b =>
      rw [option_bindM_some]
      cases hft : t.mapM f with
      | none =>
        rw [option_bindM_none]
        simp only [true_iff]
        rcases ih.mp hft with ⟨x, hx, hfx⟩
        exact ⟨x, by simp [hx], hfx⟩
      | some bs =>
        rw [option_bindM_some, option_pure]
        constructor
        · intro hc; cases hc
        · rintro ⟨x, hx, hfx⟩
          rcases List.mem_cons.mp hx with hx | hx
          · subst hx; rw [hfa] at hfx; cases hfx
          · exact absurd (ih.mpr ⟨x, hx, hfx⟩) (by rw [hft]; intro hc; cases hc)

theorem matInv_eq_inv {d : ℕ} (A : Matrix (Fin d) (Fin d) ℚ) : matInv A = A⁻¹ := by
  rw [matInv, Matrix.inv_def, Ring.inverse_eq_inv]

theorem smul_one_mul_smul_one {d : ℕ} {a : ℚ} (h : a ≠ 0) :
    (a • (1 : Matrix (Fin d) (Fin d) ℚ)) * (a⁻¹ • (1 : Matrix (Fin d) (Fin d) ℚ)) = 1 := by
  rw [Matrix.smul_mul, Matrix.mul_smul, one_mul, smul_smul, mul_inv_cancel₀ h, one_smul]

theorem matInv_smul_one {d : ℕ} {a : ℚ} (h : a ≠ 0) :
    matInv (a • (1 : Matrix (Fin d) (Fin d) ℚ)) = a⁻¹ • 1 := by
  rw [matInv_eq_inv]
  exact Matrix.inv_eq_right_inv (smul_one_mul_smul_one h)

theorem det_smul_one {d : ℕ} (a : ℚ) :
    (a • (1 : Matrix (Fin d) (Fin d) ℚ)).det = a ^ d := by
  rw [Matrix.det_smul, Matrix.det_one, mul_one, Fintype.card_fin]

theorem lowerSym_of_symm {d : ℕ} {C : Matrix (Fin d) (Fin d) ℚ} (h : Cᵀ = C) :
    lowerSym C = C := by
  ext i j
  rw [lowerSym]
  by_cases hij : j ≤ i
  · simp [hij]
  · simp only [Matrix.of_apply, if_neg hij]
    have h2 := congrFun (congrFun h j) i
    rw [Matrix.transpose_apply] at h2
    exact h2.symm

theorem lowerSym_smul_one {d : ℕ} (a : ℚ) :
    lowerSym (a • (1 : Matrix (Fin d) (Fin d) ℚ)) = a • 1 := by
  apply lowerSym_of_symm
  rw [Matrix.transpose_smul, Matrix.transpose_one]

theorem leadingSub_smul_one {d : ℕ} (a : ℚ) (k : Fin d) :
    leadingSub (a • (1 : Matrix (Fin d) (Fin d) ℚ)) k = a • 1 := by
  ext i j
  simp only [leadingSub, Matrix.submatrix_apply, Matrix.smul_apply, Matrix.one_apply,
    (Fin.castLE_injective k.2).eq_iff]

theorem choleskySucceeds_smul_one {d : ℕ} {a : ℚ} (h : 0 < a) :
    CholeskySucceeds (a • (1 : Matrix (Fin d) (Fin d) ℚ)) := by
  intro k
  rw [lowerSym_smul_one, leadingSub_smul_one, det_smul_one]
  exact pow_pos h _

theorem smul_one_mulVec {d : ℕ} (a : ℚ) (r : Fin d → ℚ) :
    (a • (1 : Matrix (Fin d) (Fin d) ℚ)) *ᵥ r = a • r := by
  rw [Matrix.smul_mulVec_assoc, Matrix.one_mulVec]

theorem vecMul_smul_one {d : ℕ} (a : ℚ) (r : Fin d → ℚ) :
    Matrix.vecMul r (a • (1 : Matrix (Fin d) (Fin d) ℚ)) = a • r := by
  rw [← Matrix.mulVec_transpose, Matrix.transpose_smul, Matrix.transpose_one, smul_one_mulVec]

theorem vecMul_smul_matrix {d : ℕ} (a : ℚ) (r : Fin d → ℚ) (M : Matrix (Fin d) (Fin d) ℚ) :
    Matrix.vecMul r (a • M) = a • Matrix.vecMul r M := by
  rw [← Matrix.mulVec_transpose, Matrix.transpose_smul, Matrix.smul_mulVec_assoc,
    Matrix.mulVec_transpose]

theorem matInv_smul {d : ℕ} {a : ℚ} (ha : a ≠ 0) {C : Matrix (Fin d) (Fin d) ℚ}
    (hC : C.det ≠ 0) : matInv (a • C) = a⁻¹ • matInv C := by
  rw [matInv_eq_inv, matInv_eq_inv]
  apply Matrix.inv_eq_right_inv
  rw [Matrix.smul_mul, Matrix.mul_smul, smul_smul,
    Matrix.mul_nonsing_inv C (isUnit_iff_ne_zero.mpr hC), mul_inv_cancel₀ ha, one_smul]

theorem det_smul_ne_zero_iff {d : ℕ} {a : ℚ} (ha : a ≠ 0) (C : Matrix (Fin d) (Fin d) ℚ) :
    (a • C).det ≠ 0 ↔ C.det ≠ 0 := by
  rw [Matrix.det_smul, Fintype.card_fin]
  constructor
  · intro h hc; exact h (by rw [hc, mul_zero])
  · intro h
    exact mul_ne_zero (pow_ne_zero _ ha) h

/-- Reduction of the source computation, for a configuration with
symmetrization disabled and zero damping, strategy `inv`. -/
theorem disc_inv {d : ℕ} (r : Fin d → ℚ) (C : Matrix (Fin d) (Fin d) ℚ) :
    computeNormalizedDiscrepancy ⟨"inv", false, 0⟩ r C =
      if C.det ≠ 0 then .ok (Matrix.vecMul r (matInv C) ⬝ᵥ r)
      else .error .singularMatrix := rfl

/-- Reduction of the source computation for strategy `pinv`. -/
theorem disc_pinv {d : ℕ} (r : Fin d → ℚ) (C : Matrix (Fin d) (Fin d) ℚ) :
    computeNormalizedDiscrepancy ⟨"pinv", false, 0⟩ r C =
      .ok (Matrix.vecMul r (pinv C) ⬝ᵥ r) := rfl

/-- Reduction of the source computation for strategy `solve`. -/
theorem disc_solve {d : ℕ} (r : Fin d → ℚ) (C : Matrix (Fin d) (Fin d) ℚ) :
    computeNormalizedDiscrepancy ⟨"solve", false, 0⟩ r C =
      if C.det ≠ 0 then .ok (r ⬝ᵥ matInv C *ᵥ r)
      else .error .singularMatrix := rfl

/-- Reduction of the source computation for strategy `cholesky`. -/
theorem disc_chol {d : ℕ} (r : Fin d → ℚ) (C : Matrix (Fin d) (Fin d) ℚ) :
    computeNormalizedDiscrepancy ⟨"cholesky", false, 0⟩ r C =
      if CholeskySucceeds C then .ok (r ⬝ᵥ matInv (lowerSym C) *ᵥ r)
      else .error .notPositiveDefinite := rfl

theorem det_one_one (a : ℚ) : (Matrix.of ![![a]]).det = a := by
  simp [Matrix.det_fin_one]

theorem matInv_one_one (a : ℚ) :
    matInv (Matrix.of ![![a]]) = a⁻¹ • (1 : Matrix (Fin 1) (Fin 1) ℚ) := by
  simp [matInv, Matrix.det_fin_one, Matrix.adjugate_fin_one]

/-- Evaluation of the discrepancy in the scalar case, strategy `solve`. -/
theorem disc_solve_one (r c : ℚ) (h : c ≠ 0) :
    computeNormalizedDiscrepancy ⟨"solve", false, 0⟩ ![r] (Matrix.of ![![c]]) =
      .ok (r * (c⁻¹ * r)) := by
  rw [disc_solve, if_pos (by rw [det_one_one]; exact h), matInv_one_one, smul_one_mulVec]
  congr 1
  simp [Matrix.dotProduct, Fin.sum_univ_one]

theorem disc_eq_pipeline {d : ℕ} (cfg : CovarianceInversion) (r : Fin d → ℚ)
    (C : Matrix (Fin d) (Fin d) ℚ) :
    computeNormalizedDiscrepancy cfg r C =
      applyStrategy cfg r (dampingStep cfg.damping (symmetrizeStep cfg.symmetrize C)) := rfl

theorem applyStrategy_invalid {d : ℕ} {cfg : CovarianceInversion}
    (h : cfg.strategy ∉ (["inv", "pinv", "solve", "cholesky"] : List String))
    (r : Fin d → ℚ) (C : Matrix (Fin d) (Fin d) ℚ) :
    applyStrategy cfg r C = .error .invalidConfiguration := by
  simp only [List.mem_cons, List.not_mem_nil, or_false, not_or] at h
  obtain ⟨h1, h2, h3, h4⟩ := h
  unfold applyStrategy
  rw [if_neg h1, if_neg h2, if_neg h3, if_neg h4]

theorem applyStrategy_mem_ne_invalid {d : ℕ} {cfg : CovarianceInversion}
    (h : cfg.strategy ∈ (["inv", "pinv", "solve", "cholesky"] : List String))
    (r : Fin d → ℚ) (C : Matrix (Fin d) (Fin d) ℚ) :
    applyStrategy cfg r C ≠ .error .invalidConfiguration := by
  unfold applyStrategy
  simp only [List.mem_cons, List.not_mem_nil, or_false] at h
  rcases h with h1 | h1 | h1 | h1
  · rw [if_pos h1]
    split <;> intro hc <;> simp at hc
  · rw [if_neg (by rw [h1]; decide), if_pos h1]
    intro hc
    simp at hc
  · rw [if_neg (by rw [h1]; decide), if_neg (by rw [h1]; decide), if_pos h1]
    split <;> intro hc <;> simp at hc
  · rw [if_neg (by rw [h1]; decide), if_neg (by rw [h1]; decide),
      if_neg (by rw [h1]; decide), if_pos h1]
    split <;> intro hc <;> simp at hc

theorem disc_invalid_iff {d : ℕ} (cfg : CovarianceInversion) (r : Fin d → ℚ)
    (C : Matrix (Fin d) (Fin d) ℚ) :
    computeNormalizedDiscrepancy cfg r C = .error .invalidConfiguration ↔
      cfg.strategy ∉ (["inv", "pinv", "solve", "cholesky"] : List String) := by
  rw [disc_eq_pipeline]
  constructor
  · intro h hmem
    exact applyStrategy_mem_ne_invalid hmem _ _ h
  · intro hmem
    exact applyStrategy_invalid hmem _ _

theorem disc_scale {d : ℕ} {s : String} (hs : s = "inv" ∨ s = "solve") {k : ℚ} (hk : k ≠ 0)
    (r : Fin d → ℚ) (C : Matrix (Fin d) (Fin d) ℚ) :
    computeNormalizedDiscrepancy ⟨s, false, 0⟩ r (k • C) =
      (computeNormalizedDiscrepancy ⟨s, false, 0⟩ r C).map (fun x => x / k) := by
  rcases hs with hs | hs <;> subst hs
  · rw [disc_inv, disc_inv]
    by_cases hC : C.det ≠ 0
    · rw [if_pos ((det_smul_ne_zero_iff hk C).mpr hC), if_pos hC, except_map_ok]
      rw [matInv_smul hk hC, vecMul_smul_matrix, Matrix.smul_dotProduct, smul_eq_mul,
        div_eq_inv_mul]
    · rw [if_neg (fun h => hC ((det_smul_ne_zero_iff hk C).mp h)), if_neg hC, except_map_error]
  · rw [disc_solve, disc_solve]
    by_cases hC : C.det ≠ 0
    · rw [if_pos ((det_smul_ne_zero_iff hk C).mpr hC), if_pos hC, except_map_ok]
      rw [matInv_smul hk hC, Matrix.smul_mulVec_assoc, Matrix.dotProduct_smul, smul_eq_mul,
        div_eq_inv_mul]
    · rw [if_neg (fun h => hC ((det_smul_ne_zero_iff hk C).mp h)), if_neg hC, except_map_error]

theorem list_sum_map_div (l : List ℚ) (k : ℚ) :
    (l.map fun x => x / k).sum = l.sum / k := by
  induction l with
  | nil => simp
  | cons a t ih => simp [ih, add_div]

theorem listMean_map_div (l : List ℚ) (k : ℚ) :
    listMean (l.map fun x => x / k) = listMean l / k := by
  rw [listMean, listMean, list_sum_map_div, List.length_map, div_right_comm]

theorem npLog10_none_iff (x : ℚ) : npLog10 x = none ↔ x ≤ 0 := by
  rw [npLog10]
  by_cases h : 0 < x
  · simp [if_pos h, not_le.mpr h]
  · simp [if_neg h, not_lt.mp h]

theorem npLog10_mapM_pos {l : List ℚ} (h : ∀ x ∈ l, 0 < x) :
    l.mapM npLog10 = some (l.map fun x : ℚ => Real.logb 10 (x : ℝ)) := by
  rw [optionMapM_some_iff, List.forall₂_map_right_iff, List.forall₂_same]
  intro x hx
  rw [npLog10, if_pos (h x hx)]

theorem vec_sub_one (a b : ℚ) : ![a] - ![b] = ![a - b] := by
  funext i
  fin_cases i
  simp

theorem npCov_two (a b : ℚ) : npCov [![a], ![b]] = Matrix.of ![![(a - b) ^ 2 / 2]] := by
  ext i j
  fin_cases i
  fin_cases j
  simp only [npCov, Matrix.of_apply, List.map_cons, List.map_nil, List.sum_cons,
    List.sum_nil, List.length_cons, List.length_nil]
  norm_num
  ring_nf

/-! ## Claim theorems -/

/-- C1: in the concrete scalar scenario (d = 1, N = 3, means [1, 2, 3],
reference [0, 2, 5], covariances [1, 1, 4], strategy `solve`, symmetrize
disabled, damping 0) the per-point normalized discrepancies are [1, 0, 1]
and `anees` returns 2/3. -/
theorem c1_concrete_scenario :
    computeNormalizedDiscrepancies ⟨"solve", false, 0⟩ [![(1 : ℚ)], ![0], ![-2]]
        [Matrix.of ![![(1 : ℚ)]], Matrix.of ![![(1 : ℚ)]], Matrix.of ![![(4 : ℚ)]]] =
      .ok [1, 0, 1] ∧
    anees ⟨"solve", false, 0⟩
        ⟨[![(1 : ℚ)], ![2], ![3]],
         [Matrix.of ![![(1 : ℚ)]], Matrix.of ![![(1 : ℚ)]], Matrix.of ![![(4 : ℚ)]]]⟩
        [![(0 : ℚ)], ![2], ![5]] = .ok (2 / 3) := by
  have hd : computeNormalizedDiscrepancies ⟨"solve", false, 0⟩ [![(1 : ℚ)], ![0], ![-2]]
      [Matrix.of ![![(1 : ℚ)]], Matrix.of ![![(1 : ℚ)]], Matrix.of ![![(4 : ℚ)]]] =
      .ok [1, 0, 1] := by
    simp only [computeNormalizedDiscrepancies, List.zip_cons_cons, List.zip_nil_right,
      List.mapM_cons, List.mapM_nil]
    rw [disc_solve_one 1 1 (by norm_num), disc_solve_one 0 1 (by norm_num),
      disc_solve_one (-2) 4 (by norm_num)]
    norm_num
    rfl
  refine ⟨hd, ?_⟩
  simp only [anees, List.zipWith_cons_cons, List.zipWith_nil_left, vec_sub_one]
  norm_num
  rw [hd, except_map_ok]
  norm_num [listMean]

/-- C3: the normalized-discrepancy computation applies its steps in order:
symmetrization (when enabled), then damping (added if and only if the
configured damping is strictly positive — in particular a damping of
exactly 0 adds nothing), then the configured inversion strategy on the
regularized covariance. -/
theorem c3_steps_in_order {d : ℕ} (cfg : CovarianceInversion) (r : Fin d → ℚ)
    (C : Matrix (Fin d) (Fin d) ℚ) :
    computeNormalizedDiscrepancy cfg r C =
      applyStrategy cfg r (dampingStep cfg.damping (symmetrizeStep cfg.symmetrize C)) ∧
    dampingStep 0 C = C ∧
    (∀ damp : ℚ, damp ≤ 0 → dampingStep damp C = C) ∧
    (∀ damp : ℚ, 0 < damp → dampingStep damp C = C + damp • 1) := by
  refine ⟨disc_eq_pipeline cfg r C, ?_, ?_, ?_⟩
  · rw [dampingStep, if_neg (lt_irrefl 0)]
  · intro damp h
    rw [dampingStep, if_neg (not_lt.mpr h)]
  · intro damp h
    rw [dampingStep, if_pos h]

theorem c3_witness :
    dampingStep (-1) (Matrix.of ![![(5 : ℚ)]]) = Matrix.of ![![(5 : ℚ)]] ∧
    dampingStep 1 (Matrix.of ![![(5 : ℚ)]]) = Matrix.of ![![(5 : ℚ)]] + (1 : ℚ) • 1 :=
  ⟨(c3_steps_in_order ⟨"solve", false, 0⟩ ![0] (Matrix.of ![![(5 : ℚ)]])).2.2.1 (-1)
      (by norm_num),
   (c3_steps_in_order ⟨"solve", false, 0⟩ ![0] (Matrix.of ![![(5 : ℚ)]])).2.2.2 1
      (by norm_num)⟩

/-- C5 (refuted; code bug): with symmetrize disabled and damping 1, the
caller-supplied covariance [[1]] is mutated in place to [[2]] by
`cov += damping * np.eye(len(cov))`, contradicting the claim that the
computation has no side effect on its arguments. -/
theorem c5_covariance_mutated :
    callerCovAfterCall ⟨"solve", false, 1⟩ (Matrix.of ![![(1 : ℚ)]]) = Matrix.of ![![(2 : ℚ)]] ∧
    Matrix.of ![![(2 : ℚ)]] ≠ (Matrix.of ![![(1 : ℚ)]] : Matrix (Fin 1) (Fin 1) ℚ) := by
  constructor
  · have h : callerCovAfterCall ⟨"solve", false, 1⟩ (Matrix.of ![![(1 : ℚ)]]) =
        Matrix.of ![![(1 : ℚ)]] + (1 : ℚ) • 1 := rfl
    rw [h]
    ext i j
    fin_cases i
    fin_cases j
    simp [Matrix.one_apply]
    norm_num
  · intro h
    have h2 := congrFun (congrFun h 0) 0
    simp at h2

/-- C6: for every residual `r` and scalar `σ² > 0`, with covariance `σ²·I`,
symmetrize disabled and damping 0, each of the four strategies `inv`,
`pinv`, `solve`, `cholesky` yields the normalized discrepancy `‖r‖²/σ²`. -/
theorem c6_all_strategies_scalar {d : ℕ} (r : Fin d → ℚ) (σ2 : ℚ) (hσ : 0 < σ2)
    (s : String) (hs : s ∈ (["inv", "pinv", "solve", "cholesky"] : List String)) :
    computeNormalizedDiscrepancy ⟨s, false, 0⟩ r (σ2 • 1) = .ok ((r ⬝ᵥ r) / σ2) := by
  have hdet : (σ2 • (1 : Matrix (Fin d) (Fin d) ℚ)).det ≠ 0 := by
    rw [det_smul_one]
    exact pow_ne_zero _ (ne_of_gt hσ)
  have hval : r ⬝ᵥ matInv (σ2 • (1 : Matrix (Fin d) (Fin d) ℚ)) *ᵥ r = (r ⬝ᵥ r) / σ2 := by
    rw [matInv_smul_one (ne_of_gt hσ), smul_one_mulVec, Matrix.dotProduct_smul,
      smul_eq_mul, div_eq_inv_mul]
  have hvalv : Matrix.vecMul r (matInv (σ2 • (1 : Matrix (Fin d) (Fin d) ℚ))) ⬝ᵥ r
      = (r ⬝ᵥ r) / σ2 := by
    rw [matInv_smul_one (ne_of_gt hσ), vecMul_smul_one, Matrix.smul_dotProduct,
      smul_eq_mul, div_eq_inv_mul]
  have hs' : s = "inv" ∨ s = "pinv" ∨ s = "solve" ∨ s = "cholesky" := by simpa using hs
  rcases hs' with hs' | hs' | hs' | hs' <;> subst hs'
  · rw [disc_inv, if_pos hdet, hvalv]
  · rw [disc_pinv, pinv, if_pos hdet, hvalv]
  · rw [disc_solve, if_pos hdet, hval]
  · rw [disc_chol, if_pos (choleskySucceeds_smul_one hσ), lowerSym_smul_one,
      matInv_smul_one (ne_of_gt hσ), smul_one_mulVec, Matrix.dotProduct_smul,
      smul_eq_mul, div_eq_inv_mul]

theorem c6_witness :
    (0 : ℚ) < 1 ∧
    computeNormalizedDiscrepancy ⟨"solve", false, 0⟩ ![(3 : ℚ)] ((1 : ℚ) • 1) =
      .ok ((![(3 : ℚ)] ⬝ᵥ ![(3 : ℚ)]) / 1) :=
  ⟨by norm_num, c6_all_strategies_scalar ![(3 : ℚ)] 1 (by norm_num) "solve" (by decide)⟩

/-- C10: whenever the regularized covariance is invertible, the `inv`
strategy (explicit inverse, `mean @ inv(C) @ mean`) and the `solve` strategy
(`mean @ solve(C, mean)`) compute the same value, the bilinear form
`rᵀ C⁻¹ r`. -/
theorem c10_inv_solve_equivalent {d : ℕ} (sym : Bool) (damp : ℚ) (r : Fin d → ℚ)
    (C : Matrix (Fin d) (Fin d) ℚ)
    (hdet : (dampingStep damp (symmetrizeStep sym C)).det ≠ 0) :
    computeNormalizedDiscrepancy ⟨"inv", sym, damp⟩ r C =
      computeNormalizedDiscrepancy ⟨"solve", sym, damp⟩ r C ∧
    computeNormalizedDiscrepancy ⟨"inv", sym, damp⟩ r C =
      .ok (r ⬝ᵥ matInv (dampingStep damp (symmetrizeStep sym C)) *ᵥ r) := by
  have einv : computeNormalizedDiscrepancy ⟨"inv", sym, damp⟩ r C =
      if (dampingStep damp (symmetrizeStep sym C)).det ≠ 0 then
        .ok (Matrix.vecMul r (matInv (dampingStep damp (symmetrizeStep sym C))) ⬝ᵥ r)
      else .error .singularMatrix := rfl
  have esol : computeNormalizedDiscrepancy ⟨"solve", sym, damp⟩ r C =
      if (dampingStep damp (symmetrizeStep sym C)).det ≠ 0 then
        .ok (r ⬝ᵥ matInv (dampingStep damp (symmetrizeStep sym C)) *ᵥ r)
      else .error .singularMatrix := rfl
  rw [einv, esol, if_pos hdet, if_pos hdet, Matrix.dotProduct_mulVec]
  exact ⟨rfl, rfl⟩

theorem c10_witness :
    ((dampingStep 0 (symmetrizeStep false (Matrix.of ![![(1 : ℚ)]]))).det ≠ 0) ∧
    computeNormalizedDiscrepancy ⟨"inv", false, 0⟩ ![(1 : ℚ)] (Matrix.of ![![(1 : ℚ)]]) =
      computeNormalizedDiscrepancy ⟨"solve", false, 0⟩ ![(1 : ℚ)] (Matrix.of ![![(1 : ℚ)]]) := by
  have hdet : (dampingStep 0 (symmetrizeStep false (Matrix.of ![![(1 : ℚ)]]))).det ≠ 0 := by
    have h : dampingStep 0 (symmetrizeStep false (Matrix.of ![![(1 : ℚ)]])) =
        Matrix.of ![![(1 : ℚ)]] := rfl
    rw [h, det_one_one]
    norm_num
  exact ⟨hdet, (c10_inv_solve_equivalent false 0 ![(1 : ℚ)] (Matrix.of ![![(1 : ℚ)]]) hdet).1⟩

theorem option_map_some {α β : Type} (a : α) (f : α → β) :
    (Option.some a).map f = some (f a) := rfl

theorem option_map_none {α β : Type} (f : α → β) :
    (Option.none : Option α).map f = none := rfl

theorem option_bind_none {α β : Type} (f : α → Option β) :
    (Option.none : Option α).bind f = none := rfl

/-- C4: the normalized-discrepancy computation raises the
invalid-configuration error exactly when the configured strategy is none of
`inv`, `pinv`, `solve`, `cholesky`; consequently `anees` and `nci` raise it
on every non-empty batch under an unrecognized strategy, and never raise it
under a recognized one. -/
theorem c4_unrecognized_strategy {d : ℕ} (cfg : CovarianceInversion) (r : Fin d → ℚ)
    (C : Matrix (Fin d) (Fin d) ℚ) (sol : ApproximateSolution d) (ref : List (Fin d → ℚ)) :
    (computeNormalizedDiscrepancy cfg r C = .error .invalidConfiguration ↔
      cfg.strategy ∉ (["inv", "pinv", "solve", "cholesky"] : List String)) ∧
    (cfg.strategy ∉ (["inv", "pinv", "solve", "cholesky"] : List String) →
      sol.mean ≠ [] → ref ≠ [] → sol.cov ≠ [] →
      anees cfg sol ref = .error .invalidConfiguration ∧
      nci cfg sol ref = .error .invalidConfiguration) ∧
    (cfg.strategy ∈ (["inv", "pinv", "solve", "cholesky"] : List String) →
      anees cfg sol ref ≠ .error .invalidConfiguration ∧
      nci cfg sol ref ≠ .error .invalidConfiguration) := by
  refine ⟨disc_invalid_iff cfg r C, ?_, ?_⟩
  · intro hmem hm hr hc
    have hcent : List.zipWith (fun m r => m - r) sol.mean ref ≠ [] := by
      rw [Ne, List.zipWith_eq_nil_iff]
      rintro (h | h)
      · exact hm h
      · exact hr h
    have hzip : (List.zipWith (fun m r => m - r) sol.mean ref).zip sol.cov ≠ [] := by
      rw [Ne, List.zip_eq_nil_iff]
      rintro (h | h)
      · exact hcent h
      · exact hc h
    obtain ⟨p, t, hpt⟩ := List.exists_cons_of_ne_nil hzip
    have hfirst : computeNormalizedDiscrepancy cfg p.1 p.2 = .error .invalidConfiguration :=
      (disc_invalid_iff cfg p.1 p.2).mpr hmem
    constructor
    · simp only [anees, computeNormalizedDiscrepancies]
      rw [hpt, exceptMapM_cons_error t hfirst, except_map_error]
    · simp only [nci, computeNormalizedDiscrepancies]
      rw [hpt, exceptMapM_cons_error t hfirst, except_bind_error]
  · intro hmem
    have hne : ∀ {covs : List (Matrix (Fin d) (Fin d) ℚ)},
        ∀ p ∈ (List.zipWith (fun m r => m - r) sol.mean ref).zip covs,
          computeNormalizedDiscrepancy cfg p.1 p.2 ≠ .error .invalidConfiguration :=
      fun p _ h => absurd hmem (by simpa using (disc_invalid_iff cfg p.1 p.2).mp h)
    constructor
    · simp only [anees, computeNormalizedDiscrepancies]
      exact except_map_ne_error (exceptMapM_no_error _ hne) listMean
    · simp only [nci, computeNormalizedDiscrepancies]
      cases hres : (((List.zipWith (fun m r => m - r) sol.mean ref).zip sol.cov).mapM
          fun p => computeNormalizedDiscrepancy cfg p.1 p.2) with
      | error e =>
        rw [except_bind_error]
        intro hcon
        cases hcon
        exact exceptMapM_no_error _ hne hres
      | ok A =>
        rw [except_bind_ok]
        cases hres2 : (((List.zipWith (fun m r => m - r) sol.mean ref).zip
            (List.replicate (List.zipWith (fun m r => m - r) sol.mean ref).length
              (npCov (List.zipWith (fun m r => m - r) sol.mean ref)))).mapM
            fun p => computeNormalizedDiscrepancy cfg p.1 p.2) with
        | error e =>
          rw [except_bind_error]
          intro hcon
          cases hcon
          exact exceptMapM_no_error _ hne hres2
        | ok B =>
          rw [except_bind_ok]
          intro hcon
          cases hcon

theorem c4_witness :
    anees ⟨"bogus", false, 0⟩ ⟨[![(1 : ℚ)]], [Matrix.of ![![(1 : ℚ)]]]⟩ [![(0 : ℚ)]] =
      .error .invalidConfiguration ∧
    nci ⟨"bogus", false, 0⟩ ⟨[![(1 : ℚ)]], [Matrix.of ![![(1 : ℚ)]]]⟩ [![(0 : ℚ)]] =
      .error .invalidConfiguration :=
  (c4_unrecognized_strategy ⟨"bogus", false, 0⟩ ![0] (Matrix.of ![![(1 : ℚ)]]) _ _).2.1
    (by decide) (List.cons_ne_nil _ _) (List.cons_ne_nil _ _) (List.cons_ne_nil _ _)

/-- C7: for every aligned non-empty batch whose discrepancy vector `ds`
computes successfully, `anees` returns exactly the arithmetic mean
(sum divided by N) of `ds`, `ds` has one entry per point, and each entry is
the independent per-point discrepancy of `(mean − reference, covariance)`
in input order. -/
theorem c7_anees_is_mean {d : ℕ} (cfg : CovarianceInversion) (sol : ApproximateSolution d)
    (ref : List (Fin d → ℚ)) (ds : List ℚ)
    (h1 : sol.mean.length = sol.cov.length) (h2 : ref.length = sol.mean.length)
    (hds : computeNormalizedDiscrepancies cfg
        (List.zipWith (fun m r => m - r) sol.mean ref) sol.cov = .ok ds)
    (hne : ds ≠ []) :
    anees cfg sol ref = .ok (ds.sum / ds.length) ∧
    ds.length = sol.mean.length ∧
    ∀ i : ℕ, ∀ hm : i < sol.mean.length, ∀ hr : i < ref.length, ∀ hc : i < sol.cov.length,
      ∀ hi : i < ds.length,
      computeNormalizedDiscrepancy cfg (sol.mean.get ⟨i, hm⟩ - ref.get ⟨i, hr⟩)
        (sol.cov.get ⟨i, hc⟩) = .ok (ds.get ⟨i, hi⟩) := by
  rw [computeNormalizedDiscrepancies] at hds
  have hF := exceptMapM_ok_iff.mp hds
  have hlen := hF.length_eq
  rw [List.length_zip, List.length_zipWith] at hlen
  have hlen' : ds.length = sol.mean.length := by omega
  refine ⟨?_, hlen', ?_⟩
  · simp only [anees, computeNormalizedDiscrepancies]
    rw [hds, except_map_ok]
    rfl
  · intro i hm hr hc hi
    have hz : i < ((List.zipWith (fun m r => m - r) sol.mean ref).zip sol.cov).length := by
      rw [List.length_zip, List.length_zipWith]
      omega
    have hgot := hF.get hz hi
    simp only [List.get_eq_getElem, List.getElem_zip, List.getElem_zipWith] at hgot ⊢
    exact hgot

theorem c7_witness :
    anees ⟨"solve", false, 0⟩ ⟨[![(1 : ℚ)]], [Matrix.of ![![(1 : ℚ)]]]⟩ [![(0 : ℚ)]] =
      .ok ([(1 : ℚ)].sum / [(1 : ℚ)].length) := by
  have hds : computeNormalizedDiscrepancies ⟨"solve", false, 0⟩
      (List.zipWith (fun m r => m - r) [![(1 : ℚ)]] [![(0 : ℚ)]])
      [Matrix.of ![![(1 : ℚ)]]] = .ok [1] := by
    simp only [List.zipWith_cons_cons, List.zipWith_nil_left, vec_sub_one,
      computeNormalizedDiscrepancies, List.zip_cons_cons, List.zip_nil_right,
      List.mapM_cons, List.mapM_nil]
    norm_num
    rw [disc_solve_one 1 1 (by norm_num)]
    norm_num
  exact (c7_anees_is_mean ⟨"solve", false, 0⟩ ⟨[![(1 : ℚ)]], [Matrix.of ![![(1 : ℚ)]]]⟩
    [![(0 : ℚ)]] [1] rfl rfl hds (List.cons_ne_nil _ _)).1

theorem smul_mat_one_one (k a : ℚ) :
    k • Matrix.of ![![a]] = Matrix.of ![![k * a]] := by
  ext i j
  fin_cases i
  fin_cases j
  simp

/-- C8 counterexample: for the batch with residual [1] and (non-PSD)
covariance [[−1]] under strategy `solve`, `anees` returns −1, while after
multiplying the covariance by k = 2 it returns −1/2, which is *not* smaller:
the claimed strict decrease fails without a positivity assumption. -/
theorem c8_counterexample :
    anees ⟨"solve", false, 0⟩ ⟨[![(1 : ℚ)]], [Matrix.of ![![(-1 : ℚ)]]]⟩ [![(0 : ℚ)]] =
      .ok (-1) ∧
    anees ⟨"solve", false, 0⟩
        ⟨[![(1 : ℚ)]], [Matrix.of ![![(-1 : ℚ)]]].map fun M => (2 : ℚ) • M⟩ [![(0 : ℚ)]] =
      .ok (-(1 / 2)) ∧
    ¬(-(1 / 2) : ℚ) < -1 := by
  refine ⟨?_, ?_, by norm_num⟩
  · simp only [anees, computeNormalizedDiscrepancies, List.zipWith_cons_cons,
      List.zipWith_nil_left, vec_sub_one, List.zip_cons_cons, List.zip_nil_right,
      List.mapM_cons, List.mapM_nil]
    norm_num
    rw [disc_solve_one 1 (-1) (by norm_num)]
    norm_num
    rw [except_map_ok]
    norm_num [listMean]
  · simp only [anees, computeNormalizedDiscrepancies, List.map_cons, List.map_nil,
      smul_mat_one_one, List.zipWith_cons_cons, List.zipWith_nil_left, vec_sub_one,
      List.zip_cons_cons, List.zip_nil_right, List.mapM_cons, List.mapM_nil]
    norm_num
    rw [disc_solve_one 1 (-2) (by norm_num)]
    norm_num
    rw [except_map_ok]
    norm_num [listMean]

/-- C8 (amended): with strategy `inv` or `solve`, symmetrize disabled and
damping 0, multiplying every covariance by a constant k > 1 scales `anees`
by 1/k; provided the original `anees` value is strictly positive (as it is
for positive-definite covariances and a non-zero residual), the inflated
value lies strictly below the original. -/
theorem c8_amended_inflation {d : ℕ} (cfg : CovarianceInversion)
    (sol : ApproximateSolution d) (ref : List (Fin d → ℚ)) (k a : ℚ)
    (hstrat : cfg.strategy = "inv" ∨ cfg.strategy = "solve")
    (hsym : cfg.symmetrize = false) (hdamp : cfg.damping = 0) (hk : 1 < k)
    (ha : anees cfg sol ref = .ok a) :
    anees cfg ⟨sol.mean, sol.cov.map fun M => k • M⟩ ref = .ok (a / k) ∧
    (0 < a → a / k < a) := by
  obtain ⟨s, sym, damp⟩ := cfg
  simp only at hstrat hsym hdamp
  subst hsym hdamp
  have hk0 : k ≠ 0 := ne_of_gt (lt_trans zero_lt_one hk)
  simp only [anees, computeNormalizedDiscrepancies] at ha ⊢
  cases hres : (((List.zipWith (fun m r => m - r) sol.mean ref).zip sol.cov).mapM
      fun p => computeNormalizedDiscrepancy ⟨s, false, 0⟩ p.1 p.2) with
  | error e =>
    rw [hres, except_map_error] at ha
    cases ha
  | ok ds =>
    rw [hres, except_map_ok] at ha
    have ha' : listMean ds = a := by
      cases ha
      rfl
    have hscaled : (((List.zipWith (fun m r => m - r) sol.mean ref).zip
        (sol.cov.map fun M => k • M)).mapM
        fun p => computeNormalizedDiscrepancy ⟨s, false, 0⟩ p.1 p.2) =
        .ok (ds.map fun x => x / k) := by
      rw [List.zip_map_right, exceptMapM_ok_iff, List.forall₂_map_right_iff,
        List.forall₂_map_left_iff]
      refine List.Forall₂.imp ?_ (exceptMapM_ok_iff.mp hres)
      intro p b hpb
      simp only [Prod.map, id]
      rw [disc_scale hstrat hk0, hpb, except_map_ok]
    rw [hscaled, except_map_ok, listMean_map_div, ha']
    exact ⟨rfl, fun hapos => div_lt_self hapos hk⟩

theorem c8_witness :
    anees ⟨"solve", false, 0⟩
        ⟨[![(1 : ℚ)]], [Matrix.of ![![(1 : ℚ)]]].map fun M => (2 : ℚ) • M⟩ [![(0 : ℚ)]] =
      .ok (1 / 2) ∧ (1 / 2 : ℚ) < 1 := by
  have ha : anees ⟨"solve", false, 0⟩ ⟨[![(1 : ℚ)]], [Matrix.of ![![(1 : ℚ)]]]⟩ [![(0 : ℚ)]] =
      .ok 1 := by
    simp only [anees, computeNormalizedDiscrepancies, List.zipWith_cons_cons,
      List.zipWith_nil_left, vec_sub_one, List.zip_cons_cons, List.zip_nil_right,
      List.mapM_cons, List.mapM_nil]
    norm_num
    rw [disc_solve_one 1 1 (by norm_num)]
    norm_num
    rw [except_map_ok]
    norm_num [listMean]
  have h := c8_amended_inflation ⟨"solve", false, 0⟩ ⟨[![(1 : ℚ)]], [Matrix.of ![![(1 : ℚ)]]]⟩
    [![(0 : ℚ)]] 2 1 (Or.inr rfl) rfl rfl (by norm_num) ha
  constructor
  · have := h.1
    norm_num at this ⊢
    exact this
  · exact h.2 (by norm_num)

/-- C2: for every batch whose two discrepancy vectors compute successfully
and are strictly positive, `nci` returns
`10 * (mean(log10 A) − mean(log10 B))`, where `A` uses the per-point
covariances and `B` uses the sample covariance matrix of the residuals
broadcast to N copies, the same configuration applied to both. -/
theorem c2_nci_formula {d : ℕ} (cfg : CovarianceInversion) (sol : ApproximateSolution d)
    (ref : List (Fin d → ℚ)) (A B : List ℚ)
    (hA : computeNormalizedDiscrepancies cfg
        (List.zipWith (fun m r => m - r) sol.mean ref) sol.cov = .ok A)
    (hB : computeNormalizedDiscrepancies cfg
        (List.zipWith (fun m r => m - r) sol.mean ref)
        (List.replicate (List.zipWith (fun m r => m - r) sol.mean ref).length
          (npCov (List.zipWith (fun m r => m - r) sol.mean ref))) = .ok B)
    (hApos : ∀ x ∈ A, 0 < x) (hBpos : ∀ x ∈ B, 0 < x) :
    nci cfg sol ref =
      .ok (some (10 * (listMeanR (A.map fun x : ℚ => Real.logb 10 (x : ℝ)) -
                       listMeanR (B.map fun x : ℚ => Real.logb 10 (x : ℝ))))) := by
  simp only [nci]
  rw [hA, except_bind_ok, hB, except_bind_ok, npLog10_mapM_pos hApos, option_bind_some,
    npLog10_mapM_pos hBpos, option_map_some]

theorem c2_witness :
    nci ⟨"solve", false, 0⟩
        ⟨[![(1 : ℚ)], ![2]], [Matrix.of ![![(1 : ℚ)]], Matrix.of ![![(1 : ℚ)]]]⟩
        [![(0 : ℚ)], ![0]] =
      .ok (some (10 * (listMeanR ([(1 : ℚ), 4].map fun x : ℚ => Real.logb 10 (x : ℝ)) -
                       listMeanR ([(2 : ℚ), 8].map fun x : ℚ => Real.logb 10 (x : ℝ))))) := by
  have hA : computeNormalizedDiscrepancies ⟨"solve", false, 0⟩
      (List.zipWith (fun m r => m - r) [![(1 : ℚ)], ![2]] [![(0 : ℚ)], ![0]])
      [Matrix.of ![![(1 : ℚ)]], Matrix.of ![![(1 : ℚ)]]] = .ok [1, 4] := by
    simp only [List.zipWith_cons_cons, List.zipWith_nil_left, vec_sub_one,
      computeNormalizedDiscrepancies, List.zip_cons_cons, List.zip_nil_right,
      List.mapM_cons, List.mapM_nil]
    norm_num
    rw [disc_solve_one 1 1 (by norm_num), disc_solve_one 2 1 (by norm_num)]
    norm_num
    rfl
  have hB : computeNormalizedDiscrepancies ⟨"solve", false, 0⟩
      (List.zipWith (fun m r => m - r) [![(1 : ℚ)], ![2]] [![(0 : ℚ)], ![0]])
      (List.replicate
        (List.zipWith (fun m r => m - r) [![(1 : ℚ)], ![2]] [![(0 : ℚ)], ![0]]).length
        (npCov (List.zipWith (fun m r => m - r) [![(1 : ℚ)], ![2]] [![(0 : ℚ)], ![0]]))) =
      .ok [2, 8] := by
    simp only [List.zipWith_cons_cons, List.zipWith_nil_left, vec_sub_one, npCov_two,
      List.length_cons, List.length_nil, List.replicate,
      computeNormalizedDiscrepancies, List.zip_cons_cons, List.zip_nil_right,
      List.mapM_cons, List.mapM_nil]
    norm_num
    rw [disc_solve_one 1 (1 / 2) (by norm_num), disc_solve_one 2 (1 / 2) (by norm_num)]
    norm_num
    rfl
  exact c2_nci_formula ⟨"solve", false, 0⟩
    ⟨[![(1 : ℚ)], ![2]], [Matrix.of ![![(1 : ℚ)]], Matrix.of ![![(1 : ℚ)]]]⟩
    [![(0 : ℚ)], ![0]] [1, 4] [2, 8] hA hB (by norm_num) (by norm_num)

/-- C9: `nci` produces a non-finite floating-point result (modelled as
`.ok none` — NaN propagation, not a raised error) exactly when some entry of
either discrepancy vector is ≤ 0 (for example at a zero residual); it is a
finite real only when every entry of both vectors is strictly positive. -/
theorem c9_nonpositive_discrepancy {d : ℕ} (cfg : CovarianceInversion)
    (sol : ApproximateSolution d) (ref : List (Fin d → ℚ)) (A B : List ℚ)
    (hA : computeNormalizedDiscrepancies cfg
        (List.zipWith (fun m r => m - r) sol.mean ref) sol.cov = .ok A)
    (hB : computeNormalizedDiscrepancies cfg
        (List.zipWith (fun m r => m - r) sol.mean ref)
        (List.replicate (List.zipWith (fun m r => m - r) sol.mean ref).length
          (npCov (List.zipWith (fun m r => m - r) sol.mean ref))) = .ok B) :
    nci cfg sol ref = .ok none ↔ (∃ x ∈ A, x ≤ 0) ∨ (∃ x ∈ B, x ≤ 0) := by
  simp only [nci]
  rw [hA, except_bind_ok, hB, except_bind_ok]
  simp only [Except.ok.injEq]
  constructor
  · intro h
    by_cases hA' : ∀ x ∈ A, 0 < x
    · rw [npLog10_mapM_pos hA', option_bind_some] at h
      by_cases hB' : ∀ x ∈ B, 0 < x
      · rw [npLog10_mapM_pos hB', option_map_some] at h
        cases h
      · right
        push_neg at hB'
        obtain ⟨x, hx, hxle⟩ := hB'
        exact ⟨x, hx, hxle⟩
    · left
      push_neg at hA'
      obtain ⟨x, hx, hxle⟩ := hA'
      exact ⟨x, hx, hxle⟩
  · rintro (⟨x, hx, hxle⟩ | ⟨x, hx, hxle⟩)
    · rw [optionMapM_none_iff.mpr ⟨x, hx, (npLog10_none_iff x).mpr hxle⟩, option_bind_none]
    · by_cases hA' : ∀ x ∈ A, 0 < x
      · rw [npLog10_mapM_pos hA', option_bind_some,
          optionMapM_none_iff.mpr ⟨x, hx, (npLog10_none_iff x).mpr hxle⟩, option_map_none]
      · push_neg at hA'
        obtain ⟨y, hy, hyle⟩ := hA'
        rw [optionMapM_none_iff.mpr ⟨y, hy, (npLog10_none_iff y).mpr hyle⟩, option_bind_none]

theorem c9_witness :
    nci ⟨"solve", false, 0⟩
        ⟨[![(0 : ℚ)], ![1]], [Matrix.of ![![(1 : ℚ)]], Matrix.of ![![(1 : ℚ)]]]⟩
        [![(0 : ℚ)], ![0]] = .ok none := by
  have hA : computeNormalizedDiscrepancies ⟨"solve", false, 0⟩
      (List.zipWith (fun m r => m - r) [![(0 : ℚ)], ![1]] [![(0 : ℚ)], ![0]])
      [Matrix.of ![![(1 : ℚ)]], Matrix.of ![![(1 : ℚ)]]] = .ok [0, 1] := by
    simp only [List.zipWith_cons_cons, List.zipWith_nil_left, vec_sub_one,
      computeNormalizedDiscrepancies, List.zip_cons_cons, List.zip_nil_right,
      List.mapM_cons, List.mapM_nil]
    norm_num
    rw [disc_solve_one 0 1 (by norm_num), disc_solve_one 1 1 (by norm_num)]
    norm_num
    rfl
  have hB : computeNormalizedDiscrepancies ⟨"solve", false, 0⟩
      (List.zipWith (fun m r => m - r) [![(0 : ℚ)], ![1]] [![(0 : ℚ)], ![0]])
      (List.replicate
        (List.zipWith (fun m r => m - r) [![(0 : ℚ)], ![1]] [![(0 : ℚ)], ![0]]).length
        (npCov (List.zipWith (fun m r => m - r) [![(0 : ℚ)], ![1]] [![(0 : ℚ)], ![0]]))) =
      .ok [0, 2] := by
    simp only [List.zipWith_cons_cons, List.zipWith_nil_left, vec_sub_one, npCov_two,
      List.length_cons, List.length_nil, List.replicate,
      computeNormalizedDiscrepancies, List.zip_cons_cons, List.zip_nil_right,
      List.mapM_cons, List.mapM_nil]
    norm_num
    rw [disc_solve_one 0 (1 / 2) (by norm_num), disc_solve_one 1 (1 / 2) (by norm_num)]
    norm_num
    rfl
  exact (c9_nonpositive_discrepancy ⟨"solve", false, 0⟩
    ⟨[![(0 : ℚ)], ![1]], [Matrix.of ![![(1 : ℚ)]], Matrix.of ![![(1 : ℚ)]]]⟩
    [![(0 : ℚ)], ![0]] [0, 1] [0, 2] hA hB).mpr (Or.inl ⟨0, by norm_num, le_refl 0⟩)

end ProbNumEval
